import Mathlib

/-!
Verification of the style-checker engine in `src/assignment2/stylecheckertwo.py`.

The Python program parses one source file with `ast.parse`, annotates every
node with a `parent` attribute (`add_parents`), and runs a fixed set of
read-only extractors over the tree (`get_imports`, `get_classes`,
`get_functions`, `get_docstrings`, `get_type_annotation_issues`,
`check_class_naming`, `check_function_naming`, `get_special_methods`).

The embedding below models the parsed tree as an inductive `Node` mirroring
the `ast` node kinds the program inspects.  Only the fields the program
reads are carried:

* `FunctionDef` / `AsyncFunctionDef` carry the name, the `arguments` record
  (each parameter reduced to its name and the presence of an annotation
  expression — annotation expressions are always truthy in Python, so a
  `Bool` is faithful to `all(arg.annotated for ...)` and `node.returns`),
  the presence of a `returns` annotation, and the statement body.
* A statement that is a bare string-constant expression is `ExprConstStr`;
  this is exactly the shape `ast.get_docstring` looks for at `body[0]`.
  (`ast.get_docstring` additionally normalises indentation via
  `inspect.cleandoc`; the claims under study do not depend on that
  whitespace normalisation, so the docstring text is carried verbatim.)
* `Import` / `ImportFrom` carry `node.names[0].name`, the only field the
  program reads; the parser guarantees at least one alias.
* Every other statement kind is `Other`, keeping only the nested statement
  lists (in field order), since no extractor matches those nodes.  Child
  nodes that are pure expressions (decorators, annotation expressions,
  `arguments`/`alias` records, ...) are omitted from the child lists:
  no `Import`/`ClassDef`/`FunctionDef`/docstring statement can occur inside
  them, so no extractor output or traversal order of relevant nodes is
  affected.

`ast.walk` in CPython is a breadth-first traversal driven by a deque
(pop from the front, extend with `iter_child_nodes` at the back); `walkBFS`
below is that queue algorithm verbatim.

Python attaches the `parent` attribute to node *objects*.  Object identity
in a tree produced by `ast.parse` corresponds exactly to the node's path
(list of child indices) from the root, so the attribute store is modelled
as an association list from paths to the stored parent node, and
`add_parents` is modelled as a state-passing function over that store.
-/

/-- One parameter of a function: its name and whether it carries a type
annotation expression (`arg.annotation` is an AST node or `None`). -/
structure Arg where
  arg : String
  annotated : Bool

/-- The `ast.arguments` record of a `FunctionDef`.  The program only ever
reads `.args`, but the other parameter groups exist on every parsed
function and matter for what the annotation check misses. -/
structure Arguments where
  posonlyargs : List Arg
  args : List Arg
  vararg : Option Arg
  kwonlyargs : List Arg
  kwarg : Option Arg

/-- Empty `arguments` record (a zero-parameter function). -/
def noArgs : Arguments := ⟨[], [], none, [], none⟩

/-- Parsed-tree nodes, restricted to the shapes the style checker reads. -/
inductive Node where
  | Module (body : List Node)
  | Import (firstName : String)
  | ImportFrom (firstName : String)
  | ClassDef (name : String) (body : List Node)
  | FunctionDef (name : String) (args : Arguments) (returns : Bool) (body : List Node)
  | AsyncFunctionDef (name : String) (args : Arguments) (returns : Bool) (body : List Node)
  | ExprConstStr (s : String)
  | Other (children : List Node)

/-- Child nodes, in `iter_child_nodes` field order (statement lists only;
see the header comment). -/
def childNodes : Node → List Node
  | .Module b => b
  | .Import _ => []
  | .ImportFrom _ => []
  | .ClassDef _ b => b
  | .FunctionDef _ _ _ b => b
  | .AsyncFunctionDef _ _ _ b => b
  | .ExprConstStr _ => []
  | .Other b => b

mutual
/-- Number of nodes in a subtree (termination measure for the traversals). -/
def nodeSize : Node → Nat
  | .Module b => 1 + nodeSizeL b
  | .Import _ => 1
  | .ImportFrom _ => 1
  | .ClassDef _ b => 1 + nodeSizeL b
  | .FunctionDef _ _ _ b => 1 + nodeSizeL b
  | .AsyncFunctionDef _ _ _ b => 1 + nodeSizeL b
  | .ExprConstStr _ => 1
  | .Other b => 1 + nodeSizeL b
def nodeSizeL : List Node → Nat
  | [] => 0
  | n :: ns => nodeSize n + nodeSizeL ns
end

theorem nodeSizeL_append (l₁ l₂ : List Node) :
    nodeSizeL (l₁ ++ l₂) = nodeSizeL l₁ + nodeSizeL l₂ := by
  induction l₁ with
  | nil => simp [nodeSizeL]
  | cons n ns ih => simp [nodeSizeL, ih]; omega

theorem nodeSizeL_childNodes_lt (n : Node) : nodeSizeL (childNodes n) < nodeSize n := by
  cases n <;> simp [childNodes, nodeSize, nodeSizeL]

/-- The queue loop of CPython's `ast.walk`: pop a node from the front of
the deque, yield it, and push its children at the back. -/
def walkBFS : List Node → List Node
  | [] => []
  | n :: todo => n :: walkBFS (todo ++ childNodes n)
termination_by l => nodeSizeL l
decreasing_by
  simp only [nodeSizeL_append, nodeSizeL]
  have := nodeSizeL_childNodes_lt n
  omega

/-- `ast.walk(tree)`: breadth-first traversal starting from the root. -/
def walk (tree : Node) : List Node := walkBFS [tree]

/-- Paths are lists of child indices from the root; they model the object
identity of nodes in the parsed tree. -/
abbrev NPath := List Nat

/-- Node at a path, if the path is valid. -/
def nodeAt : Node → NPath → Option Node
  | n, [] => some n
  | n, i :: p =>
    match (childNodes n)[i]? with
    | some c => nodeAt c p
    | none => none

/-- Pair each list element with its index, starting at `k`. -/
def withIdx : Nat → List α → List (Nat × α)
  | _, [] => []
  | k, a :: l => (k, a) :: withIdx (k + 1) l

/-- Children of a (path, node) pair, with their paths. -/
def childPairs (pn : NPath × Node) : List (NPath × Node) :=
  (withIdx 0 (childNodes pn.2)).map (fun ic => (pn.1 ++ [ic.1], ic.2))

/-- Total size of the nodes in a queue of (path, node) pairs. -/
def pairSizeL (l : List (NPath × Node)) : Nat := nodeSizeL (l.map (·.2))

theorem pairSizeL_childPairs (pn : NPath × Node) :
    pairSizeL (childPairs pn) = nodeSizeL (childNodes pn.2) := by
  show nodeSizeL _ = _
  obtain ⟨p, n⟩ := pn
  simp only [childPairs]
  generalize childNodes n = l
  rw [List.map_map]
  suffices h : ∀ (k : Nat), ((withIdx k l).map (fun ic => ((p ++ [ic.1], ic.2) : NPath × Node))).map (·.2) = l by
    rw [← List.map_map]; exact congrArg nodeSizeL (h 0)
  intro k
  induction l generalizing k with
  | nil => simp [withIdx]
  | cons a l ih => simp [withIdx, ih]

/-- The same queue traversal as `walkBFS`, but carrying each node's path. -/
def walkP : List (NPath × Node) → List (NPath × Node)
  | [] => []
  | pn :: todo => pn :: walkP (todo ++ childPairs pn)
termination_by l => pairSizeL l
decreasing_by
  show pairSizeL _ < pairSizeL _
  simp only [pairSizeL, List.map_append, List.map_cons, nodeSizeL_append, nodeSizeL]
  have h1 : nodeSizeL ((childPairs pn).map (·.2)) = nodeSizeL (childNodes pn.2) :=
    pairSizeL_childPairs pn
  rw [h1]
  have := nodeSizeL_childNodes_lt pn.2
  omega

/-- Breadth-first traversal of the tree with the path of every node. -/
def walkPaths (tree : Node) : List (NPath × Node) := walkP [([], tree)]

/-! ### The regular expressions of the source

`check_class_naming` uses `re.match(r'^[A-Z][A-Za-z0-9]*$', cls)` and
`check_function_naming` uses `re.match(r'^([a-z]+_?)*[a-z]+$', node.name)`.
Both patterns are anchored on both sides; on the identifier names produced
by the parser (which cannot contain a newline) Python's `^`/`$` anchors
coincide with whole-string matching, which is how `re_full_match` models
them.  The patterns are translated syntactically into `RegularExpression`
terms: a character class becomes an alternation over its characters,
`e+` becomes `e · e*` and `e?` becomes `e ∣ ε`. -/

/-- Character-class alternation: one regex alternative per character. -/
def anyOf (cs : List Char) : RegularExpression Char :=
  cs.foldr (fun c r => RegularExpression.char c + r) 0

/-- Translation of `e+`. -/
def plusRe (r : RegularExpression Char) : RegularExpression Char :=
  r * RegularExpression.star r

/-- Translation of `e?`. -/
def optRe (r : RegularExpression Char) : RegularExpression Char := r + 1

/-- The characters of the class `[a-z]`. -/
def lowerChars : List Char := "abcdefghijklmnopqrstuvwxyz".data

/-- The characters of the class `[A-Z]`. -/
def upperChars : List Char := "ABCDEFGHIJKLMNOPQRSTUVWXYZ".data

/-- The characters of the class `[0-9]`. -/
def digitChars : List Char := "0123456789".data

/-- The characters of the class `[A-Za-z0-9]`. -/
def alnumChars : List Char := upperChars ++ lowerChars ++ digitChars

/-- The pattern `^[A-Z][A-Za-z0-9]*$` of `check_class_naming`. -/
def classNameRe : RegularExpression Char :=
  anyOf upperChars * RegularExpression.star (anyOf alnumChars)

/-- The pattern `^([a-z]+_?)*[a-z]+$` of `check_function_naming`. -/
def funcNameRe : RegularExpression Char :=
  RegularExpression.star (plusRe (anyOf lowerChars) * optRe (RegularExpression.char '_'))
    * plusRe (anyOf lowerChars)

/-- Whole-string regex matching, the model of `re.match(r'^pat$', s)` on
newline-free identifier strings. -/
def re_full_match (r : RegularExpression Char) (s : String) : Bool :=
  r.rmatch s.data

/-! ### The extractors, translated from the source -/

/-- Name held by an import statement (`node.names[0].name`), if any. -/
def importName : Node → Option String
  | .Import s => some s
  | .ImportFrom s => some s
  | _ => none

/-- Source `get_imports`: `sorted(set(node.names[0].name for node in
ast.walk(tree) if isinstance(node, (ast.Import, ast.ImportFrom))))`. -/
def get_imports (tree : Node) : List String :=
  List.insertionSort (fun a b => decide (a ≤ b))
    (((walk tree).filterMap importName).dedup)

/-- Source `get_classes`: the comprehension over `ast.walk` keeping
`ast.ClassDef` names. -/
def get_classes (tree : Node) : List String :=
  (walk tree).filterMap (fun n =>
    match n with
    | .ClassDef name _ => some name
    | _ => none)

/-- The `__`  marker used by `is_special_method`. -/
def dunder : String := "__"

/-- Whether `pre` is a leading segment of `s` (computable prefix test on
character sequences). -/
def beginsWith : List Char → List Char → Bool
  | [], _ => true
  | _ :: _, [] => false
  | a :: pre, b :: s => a == b && beginsWith pre s

/-- Source `is_special_method`: `name.startswith('__') and
name.endswith('__')`.  `str.startswith` is a prefix test on the character
sequence and `str.endswith` a suffix test, i.e. a prefix test on the
reversed sequence. -/
def is_special_method (name : String) : Bool :=
  beginsWith dunder.data name.data && beginsWith dunder.data.reverse name.data.reverse

/-- The attribute store for `parent` attributes: object identity is a path,
the stored value is the parent node. -/
abbrev AttrStore := List (NPath × Node)

/-- Attribute lookup: the value of the first assignment recorded for the
path, models reading a (possibly absent) object attribute. -/
def lookupP (s : AttrStore) (k : NPath) : Option Node :=
  (s.find? (fun e => decide (e.1 = k))).map (·.2)

/-- Test for `isinstance(node, ast.ClassDef)`. -/
def isClassNode : Node → Bool
  | .ClassDef _ _ => true
  | _ => false

/-- Test for `isinstance(getattr(node, 'parent', None), ast.ClassDef)`
against the attribute store. -/
def parentAttrIsClass (s : AttrStore) (p : NPath) : Bool :=
  match lookupP s p with
  | some m => isClassNode m
  | none => false

/-- Source `get_functions`: the comprehension over `ast.walk` keeping
`ast.FunctionDef` names whose `parent` attribute is not an
`ast.ClassDef`.  The walk carries paths because that is how the
embedding addresses the per-object `parent` attribute. -/
def get_functions (s : AttrStore) (tree : Node) : List String :=
  (walkPaths tree).filterMap (fun pn =>
    match pn.2 with
    | .FunctionDef name _ _ _ =>
      if parentAttrIsClass s pn.1 then none else some name
    | _ => none)

/-- The string `ast.get_docstring` returns (before whitespace
normalisation): the text of a leading string-constant statement. -/
def docstringOf (body : List Node) : Option String :=
  match body.head? with
  | some (.ExprConstStr s) => some s
  | _ => none

/-- Separator of a docstring entry with text: `f"{node.name}:\n{doc}"`. -/
def colonNL : String := ":\n"

/-- Tail of a docstring entry without text. -/
def notFoundText : String := ": DocString not found."

/-- One docstring entry: `if doc:` is Python truthiness, so `None` and the
empty string both take the not-found branch. -/
def docEntry (name : String) (doc : Option String) : String :=
  match doc with
  | some d => if d.isEmpty then name ++ notFoundText else name ++ colonNL ++ d
  | none => name ++ notFoundText

/-- Source `get_docstrings`: the loop over `ast.walk` appending one entry
per `ast.ClassDef` or non-special `ast.FunctionDef`. -/
def get_docstrings (tree : Node) : List String :=
  (walk tree).foldl (fun acc n =>
    match n with
    | .ClassDef name body => acc ++ [docEntry name (docstringOf body)]
    | .FunctionDef name _ _ body =>
      if is_special_method name then acc
      else acc ++ [docEntry name (docstringOf body)]
    | _ => acc) []

/-- Source `get_type_annotation_issues`: the loop over `ast.walk` flagging
non-special `ast.FunctionDef`s with
`not all(arg.annotated for arg in node.args.args) or not node.returns`. -/
def get_type_annotation_issues (tree : Node) : List String :=
  (walk tree).foldl (fun acc n =>
    match n with
    | .FunctionDef name a returns _ =>
      if is_special_method name then acc
      else
        let has_annotations := a.args.all (fun arg => arg.annotated)
        if !has_annotations || !returns then acc ++ [name] else acc
    | _ => acc) []

/-- Source `check_class_naming`: filter the given class names by the
class-name pattern. -/
def check_class_naming (classes : List String) : List String :=
  classes.filter (fun cls => !re_full_match classNameRe cls)

/-- Source `check_function_naming`: the loop over `ast.walk` collecting
non-special `ast.FunctionDef` names failing the function-name pattern. -/
def check_function_naming (tree : Node) : List String :=
  (walk tree).foldl (fun acc n =>
    match n with
    | .FunctionDef name _ _ _ =>
      if is_special_method name then acc
      else if !re_full_match funcNameRe name then acc ++ [name] else acc
    | _ => acc) []

/-- Source `get_special_methods`: the comprehension over `ast.walk` keeping
`ast.FunctionDef` names satisfying `is_special_method`. -/
def get_special_methods (tree : Node) : List String :=
  (walk tree).filterMap (fun n =>
    match n with
    | .FunctionDef name _ _ _ =>
      if is_special_method name then some name else none
    | _ => none)

/-- The parent assignments performed by one run of `add_parents`: for every
walked node and every direct child, record the child's `parent`
attribute as the walked node. -/
def parentAssignments (tree : Node) : AttrStore :=
  (walkPaths tree).flatMap (fun pn =>
    (withIdx 0 (childNodes pn.2)).map (fun ic => (pn.1 ++ [ic.1], pn.2)))

/-- Source `add_parents`, as a state-passing function on the attribute
store: the new assignments shadow any older ones (Python `setattr`
overwrites), and the tree itself is returned unchanged. -/
def add_parents (s : AttrStore) (tree : Node) : AttrStore × Node :=
  (parentAssignments tree ++ s, tree)

/-! ### Structure of the breadth-first traversal -/

theorem mem_withIdx {α : Type} (l : List α) :
    ∀ (k i : Nat) (a : α), (i, a) ∈ withIdx k l ↔ ∃ j, l[j]? = some a ∧ i = k + j := by
  induction l with
  | nil => intro k i a; simp [withIdx]
  | cons b l ih =>
    intro k i a
    simp only [withIdx, List.mem_cons, Prod.mk.injEq, ih]
    constructor
    · rintro (⟨h1, h2⟩ | ⟨j, hj, hi⟩)
      · exact ⟨0, by simp [h2, h1], by omega⟩
      · exact ⟨j + 1, by simpa using hj, by omega⟩
    · rintro ⟨j, hj, hi⟩
      cases j with
      | zero => left; constructor; omega; simpa using hj.symm
      | succ j => right; exact ⟨j, by simpa using hj, by omega⟩

theorem mem_childPairs (pn x : NPath × Node) :
    x ∈ childPairs pn ↔
      ∃ i c, (childNodes pn.2)[i]? = some c ∧ x = (pn.1 ++ [i], c) := by
  obtain ⟨p, n⟩ := pn
  simp only [childPairs, List.mem_map]
  constructor
  · rintro ⟨⟨i, c⟩, hm, rfl⟩
    obtain ⟨j, hj, hi⟩ := (mem_withIdx _ 0 i c).mp hm
    exact ⟨i, c, by simpa [hi] using hj, rfl⟩
  · rintro ⟨i, c, hc, rfl⟩
    exact ⟨(i, c), (mem_withIdx _ 0 i c).mpr ⟨i, hc, by omega⟩, rfl⟩

theorem nodeAt_cons (n : Node) (i : Nat) (p : NPath) :
    nodeAt n (i :: p) = ((childNodes n)[i]?).bind (fun c => nodeAt c p) := by
  rw [nodeAt]
  cases (childNodes n)[i]? <;> simp

theorem nodeAt_append (n : Node) (p q : NPath) :
    nodeAt n (p ++ q) = (nodeAt n p).bind (fun m => nodeAt m q) := by
  induction p generalizing n with
  | nil => simp [nodeAt]
  | cons i p ih =>
    simp only [List.cons_append, nodeAt_cons]
    cases (childNodes n)[i]? with
    | none => simp
    | some c => simp [ih]

/-- Everything the queue traversal emits is a descendant of a queue entry,
and every descendant of a queue entry is emitted. -/
theorem mem_walkP (l : List (NPath × Node)) :
    ∀ q m, ((q, m) ∈ walkP l ↔
      ∃ pn ∈ l, ∃ r, q = pn.1 ++ r ∧ nodeAt pn.2 r = some m) := by
  induction l using walkP.induct with
  | case1 => simp [walkP]
  | case2 pn todo ih =>
    obtain ⟨p0, n0⟩ := pn
    intro q m
    rw [walkP]
    simp only [List.mem_cons, ih, List.mem_append]
    constructor
    · rintro (h | ⟨pn', (h' | h'), r, hq, hr⟩)
      · rw [Prod.mk.injEq] at h
        refine ⟨(p0, n0), Or.inl rfl, [], by simp [h.1], ?_⟩
        simp [nodeAt, h.2]
      · exact ⟨pn', Or.inr h', r, hq, hr⟩
      · obtain ⟨i, c, hc, rfl⟩ := (mem_childPairs (p0, n0) pn').mp h'
        refine ⟨(p0, n0), Or.inl rfl, i :: r, by simpa using hq, ?_⟩
        rw [nodeAt_cons]
        simpa [hc] using hr
    · rintro ⟨pn', (rfl | h'), r, hq, hr⟩
      · cases r with
        | nil =>
          have hq' : q = p0 := by simpa using hq
          have hm : n0 = m := by simpa [nodeAt] using hr
          exact Or.inl (by rw [hq', ← hm])
        | cons i r' =>
          right
          rw [nodeAt_cons] at hr
          cases hc : (childNodes n0)[i]? with
          | none => rw [show childNodes (p0, n0).2 = childNodes n0 from rfl, hc] at hr; simp at hr
          | some c =>
            rw [show childNodes (p0, n0).2 = childNodes n0 from rfl, hc] at hr
            rw [Option.some_bind] at hr
            refine ⟨(p0 ++ [i], c), Or.inr ?_, r', by simpa using hq, hr⟩
            exact (mem_childPairs (p0, n0) _).mpr ⟨i, c, hc, rfl⟩
      · exact Or.inr ⟨pn', Or.inl h', r, hq, hr⟩

/-- Specialisation to the traversal from the root: the walked pairs are
exactly the valid paths with their nodes. -/
theorem mem_walkPaths (tree : Node) (q : NPath) (m : Node) :
    (q, m) ∈ walkPaths tree ↔ nodeAt tree q = some m := by
  rw [walkPaths, mem_walkP]
  constructor
  · rintro ⟨pn, hpn, r, hq, hr⟩
    simp only [List.mem_singleton] at hpn
    subst hpn
    simpa [hq] using hr
  · intro h
    exact ⟨([], tree), by simp, q, by simp, h⟩

theorem childPairs_map_snd (pn : NPath × Node) :
    (childPairs pn).map (·.2) = childNodes pn.2 := by
  obtain ⟨p, n⟩ := pn
  simp only [childPairs, List.map_map]
  generalize childNodes n = l
  suffices h : ∀ (k : Nat),
      ((withIdx k l).map ((·.2) ∘ fun ic => ((p ++ [ic.1], ic.2) : NPath × Node))) = l by
    exact h 0
  intro k
  induction l generalizing k with
  | nil => simp [withIdx]
  | cons a l ih => simp [withIdx, ih]

/-- Dropping the paths from the path-carrying traversal gives `ast.walk`. -/
theorem walkP_map_snd : ∀ (l : List (NPath × Node)),
    (walkP l).map (·.2) = walkBFS (l.map (·.2)) := by
  intro l
  induction l using walkP.induct with
  | case1 => simp [walkP, walkBFS]
  | case2 pn todo ih =>
    rw [walkP]
    simp only [List.map_cons]
    rw [walkBFS]
    simp only [ih, List.map_append, childPairs_map_snd]

theorem walk_eq_walkPaths_snd (tree : Node) :
    walk tree = (walkPaths tree).map (·.2) := by
  rw [walk, walkPaths, walkP_map_snd]
  rfl

/-- Path incomparability: neither path is a (possibly improper) ancestor
of the other. -/
def incompPath (p q : NPath) : Prop :=
  (¬ ∃ r, q = p ++ r) ∧ (¬ ∃ r, p = q ++ r)

theorem incompPath_extend {p a : NPath} (h : incompPath p a) (i : Nat) :
    incompPath a (p ++ [i]) := by
  constructor
  · rintro ⟨r, hr⟩
    rcases List.append_eq_append_iff.mp hr with ⟨a', ha', _⟩ | ⟨c', hc', _⟩
    · exact h.1 ⟨a', ha'⟩
    · exact h.2 ⟨c', hc'⟩
  · rintro ⟨r, hr⟩
    exact h.1 ⟨[i] ++ r, by simpa using hr⟩

theorem withIdx_fst_ge {α : Type} :
    ∀ (l : List α) (k : Nat), ∀ x ∈ withIdx k l, k ≤ x.1 := by
  intro l
  induction l with
  | nil => intro k x hx; simp [withIdx] at hx
  | cons a l ih =>
    intro k x hx
    rcases (List.mem_cons).mp hx with rfl | hx
    · exact Nat.le_refl _
    · exact Nat.le_of_succ_le (ih (k + 1) x hx)

theorem withIdx_pairwise_lt {α : Type} :
    ∀ (l : List α) (k : Nat), (withIdx k l).Pairwise (fun a b => a.1 < b.1) := by
  intro l
  induction l with
  | nil => intro k; simp [withIdx]
  | cons a l ih =>
    intro k
    rw [withIdx, List.pairwise_cons]
    exact ⟨fun y hy => Nat.lt_of_lt_of_le (Nat.lt_succ_self k) (withIdx_fst_ge l (k + 1) y hy),
      ih (k + 1)⟩

/-- If no queue entry's path is an ancestor of another's, the traversal
emits each path at most once. -/
theorem walkP_paths_nodup : ∀ (l : List (NPath × Node)),
    l.Pairwise (fun x y => incompPath x.1 y.1) →
    ((walkP l).map (·.1)).Nodup := by
  intro l
  induction l using walkP.induct with
  | case1 => intro _; simp [walkP]
  | case2 pn todo ih =>
    intro h
    rw [List.pairwise_cons] at h
    obtain ⟨hhead, htodo⟩ := h
    rw [walkP, List.map_cons, List.nodup_cons]
    constructor
    · intro hmem
      rw [List.mem_map] at hmem
      obtain ⟨⟨q, m⟩, hqm, hq⟩ := hmem
      rw [mem_walkP] at hqm
      obtain ⟨pn', hpn', r, hqr, _⟩ := hqm
      rcases (List.mem_append).mp hpn' with h' | h'
      · exact (hhead pn' h').2 ⟨r, by rw [← hq]; exact hqr⟩
      · obtain ⟨i, c, _, rfl⟩ := (mem_childPairs pn pn').mp h'
        have hlen := congrArg List.length (hq.symm.trans hqr)
        simp [List.length_append] at hlen
    · apply ih
      rw [List.pairwise_append]
      refine ⟨htodo, ?_, ?_⟩
      · rw [childPairs, List.pairwise_map]
        apply (withIdx_pairwise_lt (childNodes pn.2) 0).imp
        intro a b hab
        constructor
        · rintro ⟨r, hr⟩
          rw [List.append_assoc] at hr
          have h2 := (List.append_right_inj pn.1).mp hr
          cases r with
          | nil =>
            simp only [List.append_nil, List.cons.injEq] at h2
            omega
          | cons x xs => simp at h2
        · rintro ⟨r, hr⟩
          rw [List.append_assoc] at hr
          have h2 := (List.append_right_inj pn.1).mp hr
          cases r with
          | nil =>
            simp only [List.append_nil, List.cons.injEq] at h2
            omega
          | cons x xs => simp at h2
      · intro a ha b hb
        obtain ⟨i, c, _, rfl⟩ := (mem_childPairs pn b).mp hb
        exact incompPath_extend (hhead a ha) i

/-- The traversal from the root visits each path exactly once. -/
theorem walkPaths_fst_nodup (tree : Node) : ((walkPaths tree).map (·.1)).Nodup := by
  apply walkP_paths_nodup
  simp

/-! ### Correctness of the parent-attribute store -/

theorem lookupP_eq_of_mem {l : AttrStore} {k : NPath} {v : Node}
    (hnd : (l.map (·.1)).Nodup) (hm : (k, v) ∈ l) : lookupP l k = some v := by
  induction l with
  | nil => simp at hm
  | cons e l ih =>
    rw [List.map_cons, List.nodup_cons] at hnd
    rcases (List.mem_cons).mp hm with rfl | hm'
    · simp [lookupP, List.find?]
    · have hk : ¬ (e.1 = k) := by
        intro hk
        exact hnd.1 (hk ▸ List.mem_map_of_mem (·.1) hm')
      have hd : decide (e.1 = k) = false := by simpa using hk
      simp only [lookupP, List.find?, hd]
      exact ih hnd.2 hm'

theorem lookupP_eq_none {l : AttrStore} {k : NPath}
    (h : ∀ v, (k, v) ∉ l) : lookupP l k = none := by
  induction l with
  | nil => rfl
  | cons e l ih =>
    have he : ¬ (e.1 = k) := by
      intro hk
      exact h e.2 (by rw [← hk]; exact List.mem_cons_self e l)
    have hd : decide (e.1 = k) = false := by simpa using he
    simp only [lookupP, List.find?, hd]
    exact ih (fun v hv => h v (List.mem_cons_of_mem e hv))

/-- Membership in the assignments of one `add_parents` run: exactly the
valid non-root paths appear as keys, and the value stored for a path is
the node of which it is a direct child. -/
theorem mem_parentAssignments (tree : Node) (q : NPath) (par : Node) :
    (q, par) ∈ parentAssignments tree ↔
      ∃ p i c, q = p ++ [i] ∧ nodeAt tree p = some par ∧
        (childNodes par)[i]? = some c := by
  rw [parentAssignments, List.mem_flatMap]
  constructor
  · rintro ⟨pn, hpn, hm⟩
    rw [List.mem_map] at hm
    obtain ⟨⟨i, c⟩, hic, heq⟩ := hm
    obtain ⟨j, hj, hij⟩ := (mem_withIdx _ 0 i c).mp hic
    rw [Prod.mk.injEq] at heq
    obtain ⟨hq, hpar⟩ := heq
    rw [mem_walkPaths] at hpn
    refine ⟨pn.1, i, c, hq.symm, by rw [hpar] at hpn; exact hpn, ?_⟩
    rw [← hpar, hij]
    simpa using hj
  · rintro ⟨p, i, c, rfl, hp, hc⟩
    refine ⟨(p, par), (mem_walkPaths tree p par).mpr hp, ?_⟩
    rw [List.mem_map]
    exact ⟨(i, c), (mem_withIdx _ 0 i c).mpr ⟨i, hc, by omega⟩, rfl⟩

/-- Keys of the block of assignments generated by one walked pair. -/
theorem parentAssignments_fst_nodup (tree : Node) :
    ((parentAssignments tree).map (·.1)).Nodup := by
  rw [parentAssignments, List.map_flatMap, List.flatMap_def, List.nodup_flatten]
  constructor
  · intro s hs
    rw [List.mem_map] at hs
    obtain ⟨pn, _, rfl⟩ := hs
    rw [List.map_map]
    refine List.Pairwise.map _ ?_ (withIdx_pairwise_lt (childNodes pn.2) 0)
    intro a b hab hcon
    have h2 := (List.append_right_inj pn.1).mp hcon
    simp only [List.cons.injEq] at h2
    omega
  · have hnd' := List.pairwise_map.mp (walkPaths_fst_nodup tree)
    rw [List.pairwise_map]
    apply hnd'.imp
    intro x y hxy
    intro a ha hb
    rw [List.map_map, List.mem_map] at ha hb
    obtain ⟨⟨i, c⟩, _, rfl⟩ := ha
    obtain ⟨⟨j, d⟩, _, heq⟩ := hb
    have h2 := List.append_inj' heq.symm (by simp)
    exact hxy h2.1

/-! ### Declarative characterisations of the extractors -/

/-- Test for `isinstance(node, ast.FunctionDef)` (async functions are a
different class and fail this test). -/
def isFuncNode : Node → Bool
  | .FunctionDef _ _ _ _ => true
  | _ => false

/-- Name of a declaration node (empty for nodes that carry no name; only
ever read on class/function nodes). -/
def declName : Node → String
  | .ClassDef name _ => name
  | .FunctionDef name _ _ _ => name
  | .AsyncFunctionDef name _ _ _ => name
  | _ => ""

/-- Statement body of a declaration node. -/
def bodyOf : Node → List Node
  | .ClassDef _ b => b
  | .FunctionDef _ _ _ b => b
  | .AsyncFunctionDef _ _ _ b => b
  | _ => []

/-- Condition under which `get_type_annotation_issues` flags a node: a
non-special plain function with an unannotated entry in `args.args` or
no return annotation. -/
def annFlagged : Node → Bool
  | .FunctionDef name a returns _ =>
    !is_special_method name && ((a.args.any (fun arg => !arg.annotated)) || !returns)
  | _ => false

theorem foldl_collect_eq {α β : Type} (g : α → Option β) :
    ∀ (l : List α) (acc : List β),
      l.foldl (fun acc n => match g n with | some x => acc ++ [x] | none => acc) acc
        = acc ++ l.filterMap g := by
  intro l
  induction l with
  | nil => intro acc; simp
  | cons a l ih =>
    intro acc
    rw [List.foldl_cons]
    cases hg : g a with
    | none =>
      rw [ih, List.filterMap_cons, hg]
    | some x =>
      rw [ih, List.filterMap_cons, hg]
      simp

theorem filterMap_guard_eq {α β : Type} (p : α → Bool) (f : α → β) :
    ∀ l : List α,
      l.filterMap (fun a => if p a then some (f a) else none) = (l.filter p).map f := by
  intro l
  induction l with
  | nil => rfl
  | cons a l ih =>
    rw [List.filterMap_cons, List.filter_cons]
    cases hp : p a with
    | true => simpa [hp] using ih
    | false => simpa [hp] using ih

theorem foldl_flag_eq {α β : Type} (flag : α → Bool) (nm : α → β) (f : List β → α → List β)
    (hadd : ∀ (acc : List β) n, flag n = true → f acc n = acc ++ [nm n])
    (hskip : ∀ (acc : List β) n, flag n = false → f acc n = acc) :
    ∀ (l : List α) (acc : List β), l.foldl f acc = acc ++ (l.filter flag).map nm := by
  intro l
  induction l with
  | nil => intro acc; simp
  | cons a l ih =>
    intro acc
    rw [List.foldl_cons, List.filter_cons]
    cases hfa : flag a with
    | true => rw [hadd acc a hfa, ih]; simp
    | false => rw [hskip acc a hfa, ih]; simp

theorem foldl_flag_eq_nil {α β : Type} (flag : α → Bool) (nm : α → β) (f : List β → α → List β)
    (hadd : ∀ (acc : List β) n, flag n = true → f acc n = acc ++ [nm n])
    (hskip : ∀ (acc : List β) n, flag n = false → f acc n = acc)
    (l : List α) : l.foldl f [] = (l.filter flag).map nm := by
  rw [foldl_flag_eq flag nm f hadd hskip l []]
  simp

theorem get_type_annotation_issues_eq (tree : Node) :
    get_type_annotation_issues tree = ((walk tree).filter annFlagged).map declName := by
  rw [get_type_annotation_issues]
  apply foldl_flag_eq_nil annFlagged declName
  · intro acc n h
    cases n with
    | FunctionDef name a returns body =>
      simp only [annFlagged, Bool.and_eq_true, Bool.or_eq_true] at h
      have hs : is_special_method name = false := by simpa using h.1
      have hcc : (!(a.args.all fun arg => arg.annotated) || !returns) = true := by
        rw [List.all_eq_not_any_not]
        rcases h.2 with h2 | h2 <;> simp [h2]
      simp [hs, hcc, declName]
    | Module b => simp [annFlagged] at h
    | Import s => simp [annFlagged] at h
    | ImportFrom s => simp [annFlagged] at h
    | ClassDef name b => simp [annFlagged] at h
    | AsyncFunctionDef name a r b => simp [annFlagged] at h
    | ExprConstStr s => simp [annFlagged] at h
    | Other b => simp [annFlagged] at h
  · intro acc n h
    cases n with
    | FunctionDef name a returns body =>
      simp only [annFlagged, Bool.and_eq_false_iff] at h
      by_cases hs : is_special_method name
      · simp [hs]
      · have hcond : ((a.args.any fun arg => !arg.annotated) || !returns) = false := by
          rcases h with h2 | h2
          · exact absurd (by simpa using h2) hs
          · exact h2
        have hcc : (!(a.args.all fun arg => arg.annotated) || !returns) = false := by
          rw [List.all_eq_not_any_not]
          simpa using hcond
        simp [hs, hcc]
    | Module b => rfl
    | Import s => rfl
    | ImportFrom s => rfl
    | ClassDef name b => rfl
    | AsyncFunctionDef name a r b => rfl
    | ExprConstStr s => rfl
    | Other b => rfl

/-- Condition under which `check_function_naming` flags a node: a
non-special plain function whose name fails the pattern. -/
def badFuncNameFlagged : Node → Bool
  | .FunctionDef name _ _ _ => !is_special_method name && !re_full_match funcNameRe name
  | _ => false

theorem check_function_naming_eq (tree : Node) :
    check_function_naming tree = ((walk tree).filter badFuncNameFlagged).map declName := by
  rw [check_function_naming]
  apply foldl_flag_eq_nil badFuncNameFlagged declName
  · intro acc n h
    cases n with
    | FunctionDef name a returns body =>
      simp only [badFuncNameFlagged, Bool.and_eq_true] at h
      have hs : is_special_method name = false := by simpa using h.1
      have hre : re_full_match funcNameRe name = false := by simpa using h.2
      simp [hs, hre, declName]
    | Module b => simp [badFuncNameFlagged] at h
    | Import s => simp [badFuncNameFlagged] at h
    | ImportFrom s => simp [badFuncNameFlagged] at h
    | ClassDef name b => simp [badFuncNameFlagged] at h
    | AsyncFunctionDef name a r b => simp [badFuncNameFlagged] at h
    | ExprConstStr s => simp [badFuncNameFlagged] at h
    | Other b => simp [badFuncNameFlagged] at h
  · intro acc n h
    cases n with
    | FunctionDef name a returns body =>
      simp only [badFuncNameFlagged, Bool.and_eq_false_iff] at h
      by_cases hs : is_special_method name
      · simp [hs]
      · have hre : re_full_match funcNameRe name = true := by
          rcases h with h2 | h2
          · exact absurd (by simpa using h2) hs
          · simpa using h2
        simp [hs, hre]
    | Module b => rfl
    | Import s => rfl
    | ImportFrom s => rfl
    | ClassDef name b => rfl
    | AsyncFunctionDef name a r b => rfl
    | ExprConstStr s => rfl
    | Other b => rfl

/-- Nodes that receive a docstring entry: every class, every non-special
plain function. -/
def docRelevant : Node → Bool
  | .ClassDef _ _ => true
  | .FunctionDef name _ _ _ => !is_special_method name
  | _ => false

/-- The docstring entry a relevant node produces. -/
def docEntryOf (n : Node) : String := docEntry (declName n) (docstringOf (bodyOf n))

theorem get_docstrings_eq (tree : Node) :
    get_docstrings tree = ((walk tree).filter docRelevant).map docEntryOf := by
  rw [get_docstrings]
  apply foldl_flag_eq_nil docRelevant docEntryOf
  · intro acc n h
    cases n with
    | ClassDef name b => simp [docEntryOf, declName, bodyOf]
    | FunctionDef name a returns body =>
      have hs : is_special_method name = false := by simpa [docRelevant] using h
      simp [hs, docEntryOf, declName, bodyOf]
    | Module b => simp [docRelevant] at h
    | Import s => simp [docRelevant] at h
    | ImportFrom s => simp [docRelevant] at h
    | AsyncFunctionDef name a r b => simp [docRelevant] at h
    | ExprConstStr s => simp [docRelevant] at h
    | Other b => simp [docRelevant] at h
  · intro acc n h
    cases n with
    | ClassDef name b => simp [docRelevant] at h
    | FunctionDef name a returns body =>
      have hs : is_special_method name = true := by simpa [docRelevant] using h
      simp [hs]
    | Module b => rfl
    | Import s => rfl
    | ImportFrom s => rfl
    | AsyncFunctionDef name a r b => rfl
    | ExprConstStr s => rfl
    | Other b => rfl

theorem get_classes_eq (tree : Node) :
    get_classes tree = ((walk tree).filter isClassNode).map declName := by
  rw [get_classes]
  have hcongr : ∀ n ∈ walk tree,
      (fun (n : Node) => match n with
        | .ClassDef name _ => some name
        | _ => none) n
      = (fun n => if isClassNode n then some (declName n) else none) n := by
    intro n _
    cases n <;> simp [isClassNode, declName]
  rw [List.filterMap_congr hcongr, filterMap_guard_eq]

theorem get_special_methods_eq (tree : Node) :
    get_special_methods tree
      = ((walk tree).filter (fun n => isFuncNode n && is_special_method (declName n))).map
          declName := by
  rw [get_special_methods]
  have hcongr : ∀ n ∈ walk tree,
      (fun (n : Node) => match n with
        | .FunctionDef name _ _ _ =>
          if is_special_method name then some name else none
        | _ => none) n
      = (fun n => if isFuncNode n && is_special_method (declName n)
          then some (declName n) else none) n := by
    intro n _
    cases n with
    | FunctionDef name a r b =>
      by_cases hs : is_special_method name <;> simp [isFuncNode, declName, hs]
    | Module b => simp [isFuncNode]
    | Import s => simp [isFuncNode]
    | ImportFrom s => simp [isFuncNode]
    | ClassDef name b => simp [isFuncNode]
    | AsyncFunctionDef name a r b => simp [isFuncNode]
    | ExprConstStr s => simp [isFuncNode]
    | Other b => simp [isFuncNode]
  rw [List.filterMap_congr hcongr, filterMap_guard_eq]

/-- Whether the node at a non-root path has an `ast.ClassDef` as its
direct (tree) parent. -/
def directParentIsClass (tree : Node) (p : NPath) : Bool :=
  if p = [] then false
  else
    match nodeAt tree p.dropLast with
    | some m => isClassNode m
    | none => false

theorem nodeAt_single (n : Node) (i : Nat) : nodeAt n [i] = (childNodes n)[i]? := by
  rw [nodeAt_cons]
  cases (childNodes n)[i]? <;> simp [nodeAt]

/-- After one `add_parents` run, the stored `parent` attribute of every
walked node agrees with its direct tree parent. -/
theorem parentAttr_eq_direct (tree : Node) (q : NPath) (m : Node)
    (hq : nodeAt tree q = some m) :
    parentAttrIsClass (parentAssignments tree) q = directParentIsClass tree q := by
  by_cases hq0 : q = []
  · subst hq0
    have hnone : lookupP (parentAssignments tree) [] = none := by
      apply lookupP_eq_none
      intro v hv
      obtain ⟨p, i, c, habs, _, _⟩ := (mem_parentAssignments tree [] v).mp hv
      exact absurd habs.symm (by simp)
    rw [parentAttrIsClass, hnone, directParentIsClass]
    simp
  · have hsplit : q.dropLast ++ [q.getLast hq0] = q := List.dropLast_append_getLast hq0
    rw [← hsplit, nodeAt_append] at hq
    rw [Option.bind_eq_some] at hq
    obtain ⟨par, hpar, hci⟩ := hq
    rw [nodeAt_single] at hci
    have hmem : (q, par) ∈ parentAssignments tree :=
      (mem_parentAssignments tree q par).mpr
        ⟨q.dropLast, q.getLast hq0, m, hsplit.symm, hpar, hci⟩
    have hsome := lookupP_eq_of_mem (parentAssignments_fst_nodup tree) hmem
    rw [parentAttrIsClass, hsome, directParentIsClass, if_neg hq0, hpar]

theorem get_functions_eq (tree : Node) :
    get_functions (parentAssignments tree) tree
      = ((walkPaths tree).filter
          (fun pn => isFuncNode pn.2 && !directParentIsClass tree pn.1)).map
          (fun pn => declName pn.2) := by
  rw [get_functions]
  have hcongr : ∀ pn ∈ walkPaths tree,
      (fun (pn : NPath × Node) => match pn.2 with
        | .FunctionDef name _ _ _ =>
          if parentAttrIsClass (parentAssignments tree) pn.1 then none else some name
        | _ => none) pn
      = (fun pn => if isFuncNode pn.2 && !directParentIsClass tree pn.1
          then some (declName pn.2) else none) pn := by
    intro pn hpn
    have hq : nodeAt tree pn.1 = some pn.2 := (mem_walkPaths tree pn.1 pn.2).mp hpn
    have hpar := parentAttr_eq_direct tree pn.1 pn.2 hq
    obtain ⟨p, n⟩ := pn
    cases n with
    | FunctionDef name a r b =>
      rw [show ((p, Node.FunctionDef name a r b) : NPath × Node).1 = p from rfl] at hpar
      cases hd : directParentIsClass tree p with
      | true => simp [hpar, hd, isFuncNode]
      | false => simp [hpar, hd, isFuncNode, declName]
    | Module b => simp [isFuncNode]
    | Import s => simp [isFuncNode]
    | ImportFrom s => simp [isFuncNode]
    | ClassDef name b => simp [isFuncNode]
    | AsyncFunctionDef name a r b => simp [isFuncNode]
    | ExprConstStr s => simp [isFuncNode]
    | Other b => simp [isFuncNode]
  rw [List.filterMap_congr hcongr, filterMap_guard_eq]

/-! ### Languages of the two naming patterns -/

theorem mem_anyOf (cs : List Char) (x : List Char) :
    x ∈ (anyOf cs).matches' ↔ ∃ c ∈ cs, x = [c] := by
  induction cs with
  | nil =>
    rw [anyOf, List.foldr_nil, RegularExpression.matches'_zero]
    simp [Language.not_mem_zero]
  | cons c cs ih =>
    rw [anyOf, List.foldr_cons]
    rw [show (RegularExpression.char c + List.foldr (fun c r => RegularExpression.char c + r) 0 cs)
        = RegularExpression.char c + anyOf cs from rfl]
    rw [RegularExpression.matches'_add]
    rw [Language.mem_add, RegularExpression.matches'_char, ih]
    simp only [Set.mem_singleton_iff, List.mem_cons]
    constructor
    · rintro (rfl | ⟨d, hd, rfl⟩)
      · exact ⟨c, Or.inl rfl, rfl⟩
      · exact ⟨d, Or.inr hd, rfl⟩
    · rintro ⟨d, (rfl | hd), rfl⟩
      · exact Or.inl rfl
      · exact Or.inr ⟨d, hd, rfl⟩

theorem mem_star_anyOf (cs : List Char) (x : List Char) :
    x ∈ (RegularExpression.star (anyOf cs)).matches' ↔ ∀ c ∈ x, c ∈ cs := by
  rw [RegularExpression.matches'_star, Language.mem_kstar]
  constructor
  · rintro ⟨L, rfl, hL⟩
    intro c hc
    rw [List.mem_flatten] at hc
    obtain ⟨y, hy, hcy⟩ := hc
    obtain ⟨d, hd, rfl⟩ := (mem_anyOf cs y).mp (hL y hy)
    rw [List.mem_singleton] at hcy
    exact hcy ▸ hd
  · intro h
    refine ⟨x.map (fun c => [c]), ?_, ?_⟩
    · induction x with
      | nil => rfl
      | cons c cs' ih =>
        simp only [List.map_cons, List.flatten_cons]
        rw [← ih (fun d hd => h d (List.mem_cons_of_mem c hd))]
        rfl
    · intro y hy
      rw [List.mem_map] at hy
      obtain ⟨c, hc, rfl⟩ := hy
      exact (mem_anyOf cs [c]).mpr ⟨c, h c hc, rfl⟩

theorem mem_plus_anyOf (cs : List Char) (x : List Char) :
    x ∈ (plusRe (anyOf cs)).matches' ↔ x ≠ [] ∧ ∀ c ∈ x, c ∈ cs := by
  rw [plusRe, RegularExpression.matches'_mul, Language.mem_mul]
  constructor
  · rintro ⟨a, ha, b, hb, rfl⟩
    obtain ⟨c, hc, rfl⟩ := (mem_anyOf cs a).mp ha
    have hball := (mem_star_anyOf cs b).mp hb
    refine ⟨by simp, ?_⟩
    intro d hd
    rcases (List.mem_cons).mp (by simpa using hd) with rfl | hd'
    · exact hc
    · exact hball d hd'
  · rintro ⟨hne, h⟩
    cases x with
    | nil => exact absurd rfl hne
    | cons c rest =>
      refine ⟨[c], (mem_anyOf cs [c]).mpr ⟨c, h c (List.mem_cons_self c rest), rfl⟩,
        rest, (mem_star_anyOf cs rest).mpr (fun d hd => h d (List.mem_cons_of_mem c hd)), rfl⟩

/-- The language of the class-name pattern `^[A-Z][A-Za-z0-9]*$`. -/
theorem mem_classNameRe (x : List Char) :
    x ∈ classNameRe.matches' ↔
      ∃ c cs', x = c :: cs' ∧ c ∈ upperChars ∧ ∀ d ∈ cs', d ∈ alnumChars := by
  rw [classNameRe, RegularExpression.matches'_mul, Language.mem_mul]
  constructor
  · rintro ⟨a, ha, b, hb, rfl⟩
    obtain ⟨c, hc, rfl⟩ := (mem_anyOf upperChars a).mp ha
    exact ⟨c, b, rfl, hc, (mem_star_anyOf alnumChars b).mp hb⟩
  · rintro ⟨c, cs', rfl, hc, hcs⟩
    exact ⟨[c], (mem_anyOf upperChars [c]).mpr ⟨c, hc, rfl⟩,
      cs', (mem_star_anyOf alnumChars cs').mpr hcs, rfl⟩

/-- The language of one group `[a-z]+_?` of the function-name pattern. -/
theorem mem_funcGroup (x : List Char) :
    x ∈ (plusRe (anyOf lowerChars) * optRe (RegularExpression.char '_')).matches' ↔
      ∃ w, (w ≠ [] ∧ ∀ c ∈ w, c ∈ lowerChars) ∧ (x = w ∨ x = w ++ ['_']) := by
  rw [RegularExpression.matches'_mul, Language.mem_mul]
  constructor
  · rintro ⟨a, ha, b, hb, rfl⟩
    have ha' := (mem_plus_anyOf lowerChars a).mp ha
    rw [optRe, RegularExpression.matches'_add, Language.mem_add,
      RegularExpression.matches'_char] at hb
    rcases hb with hb | hb
    · rw [Set.mem_singleton_iff] at hb
      exact ⟨a, ha', Or.inr (by rw [hb])⟩
    · rw [RegularExpression.matches'_epsilon, Language.mem_one] at hb
      exact ⟨a, ha', Or.inl (by rw [hb, List.append_nil])⟩
  · rintro ⟨w, hw, h⟩
    rcases h with h | h
    · refine ⟨w, (mem_plus_anyOf lowerChars w).mpr hw, [], ?_, by rw [List.append_nil, h]⟩
      rw [optRe, RegularExpression.matches'_add, Language.mem_add,
        RegularExpression.matches'_epsilon]
      exact Or.inr ((Language.mem_one []).mpr rfl)
    · refine ⟨w, (mem_plus_anyOf lowerChars w).mpr hw, ['_'], ?_, h.symm⟩
      rw [optRe, RegularExpression.matches'_add, Language.mem_add,
        RegularExpression.matches'_char]
      exact Or.inl rfl

/-! ### An executable recogniser for the function-name language -/

mutual
/-- State of the snake-case scanner at the start of a group (start of the
string or just after an underscore): a lowercase letter is required. -/
def scanGroupStart : List Char → Bool
  | [] => false
  | c :: cs => lowerChars.contains c && scanAfterLetter cs
/-- State of the snake-case scanner after at least one letter of the
current group (accepting). -/
def scanAfterLetter : List Char → Bool
  | [] => true
  | c :: cs =>
    if lowerChars.contains c then scanAfterLetter cs
    else if c = '_' then scanGroupStart cs else false
end

theorem scanAfterLetter_lower_skip (w r : List Char)
    (hw : ∀ c ∈ w, c ∈ lowerChars) :
    scanAfterLetter (w ++ r) = scanAfterLetter r := by
  induction w with
  | nil => rfl
  | cons c w ih =>
    have hc : lowerChars.contains c = true := by
      simp [hw c (List.mem_cons_self c w)]
    rw [List.cons_append, scanAfterLetter, if_pos hc]
    exact ih (fun d hd => hw d (List.mem_cons_of_mem c hd))

theorem scanAfterLetter_of_groupStart (r : List Char)
    (h : scanGroupStart r = true) : scanAfterLetter r = true := by
  cases r with
  | nil => rfl
  | cons c cs =>
    rw [scanGroupStart, Bool.and_eq_true] at h
    rw [scanAfterLetter, if_pos h.1]
    exact h.2

theorem scanGroupStart_all_lower (w : List Char) (hne : w ≠ [])
    (hw : ∀ c ∈ w, c ∈ lowerChars) : scanGroupStart w = true := by
  cases w with
  | nil => exact absurd rfl hne
  | cons c w' =>
    rw [scanGroupStart, Bool.and_eq_true]
    refine ⟨by simp [hw c (List.mem_cons_self c w')], ?_⟩
    rw [show w' = w' ++ [] from (List.append_nil w').symm,
      scanAfterLetter_lower_skip w' [] (fun d hd => hw d (List.mem_cons_of_mem c hd))]
    rfl

theorem scanGroupStart_piece (piece rest : List Char)
    (hp : ∃ w, (w ≠ [] ∧ ∀ c ∈ w, c ∈ lowerChars) ∧ (piece = w ∨ piece = w ++ ['_']))
    (hr : scanGroupStart rest = true) :
    scanGroupStart (piece ++ rest) = true := by
  obtain ⟨w, ⟨hne, hlow⟩, hcase⟩ := hp
  cases w with
  | nil => exact absurd rfl hne
  | cons c w' =>
    have hc : lowerChars.contains c = true := by
      simp [hlow c (List.mem_cons_self c w')]
    have hw' : ∀ d ∈ w', d ∈ lowerChars := fun d hd => hlow d (List.mem_cons_of_mem c hd)
    rcases hcase with rfl | rfl
    · rw [List.cons_append, scanGroupStart, Bool.and_eq_true]
      exact ⟨hc, by rw [scanAfterLetter_lower_skip w' rest hw']
                    exact scanAfterLetter_of_groupStart rest hr⟩
    · rw [List.append_assoc, List.cons_append, scanGroupStart, Bool.and_eq_true]
      refine ⟨hc, ?_⟩
      rw [scanAfterLetter_lower_skip w' (['_'] ++ rest) hw']
      rw [show (['_'] ++ rest) = '_' :: rest from rfl, scanAfterLetter]
      rw [if_neg (by decide), if_pos rfl]
      exact hr

/-- Every string of the function-name pattern's language is accepted by
the scanner. -/
theorem scan_of_matches (x : List Char) (h : x ∈ funcNameRe.matches') :
    scanGroupStart x = true := by
  rw [funcNameRe, RegularExpression.matches'_mul, Language.mem_mul] at h
  obtain ⟨u, hu, v, hv, rfl⟩ := h
  rw [RegularExpression.matches'_star, Language.mem_kstar] at hu
  obtain ⟨L, rfl, hL⟩ := hu
  have hvscan : scanGroupStart v = true := by
    have hv' := (mem_plus_anyOf lowerChars v).mp hv
    exact scanGroupStart_all_lower v hv'.1 hv'.2
  clear hv
  induction L with
  | nil => simpa using hvscan
  | cons piece L ih =>
    rw [List.flatten_cons, List.append_assoc]
    refine scanGroupStart_piece piece (L.flatten ++ v) ?_ ?_
    · exact (mem_funcGroup piece).mp (hL piece (List.mem_cons_self piece L))
    · exact ih (fun y hy => hL y (List.mem_cons_of_mem piece hy))

/-- Joining groups with single underscores, as the claim describes the
accepted names: one or more groups of lowercase letters separated by
single underscores. -/
def sepJoin : List (List Char) → List Char
  | [] => []
  | [g] => g
  | g :: gs => g ++ '_' :: sepJoin gs

/-- The claim's description of a conforming function name: one or more
nonempty groups of lowercase letters, single underscores between
consecutive groups, no leading/trailing/double underscore, no digits. -/
def snake_shape (s : String) : Prop :=
  ∃ gs : List (List Char), gs ≠ [] ∧
    (∀ g ∈ gs, g ≠ [] ∧ ∀ c ∈ g, c ∈ lowerChars) ∧ s.data = sepJoin gs

/-- The claim's description of a conforming class name: one uppercase
letter followed by any run of (ASCII) letters and digits. -/
def camel_shape (s : String) : Prop :=
  ∃ c cs', s.data = c :: cs' ∧ c ∈ upperChars ∧ ∀ d ∈ cs', d ∈ alnumChars

theorem scanAfterLetter_split : ∀ cs, scanAfterLetter cs = true →
    ∃ w rest, cs = w ++ rest ∧ (∀ c ∈ w, c ∈ lowerChars) ∧
      (rest = [] ∨ ∃ t, rest = '_' :: t ∧ scanGroupStart t = true) := by
  intro cs
  induction cs with
  | nil => intro _; exact ⟨[], [], rfl, by simp, Or.inl rfl⟩
  | cons c cs' ih =>
    intro h
    by_cases hc : lowerChars.contains c = true
    · rw [scanAfterLetter, if_pos hc] at h
      obtain ⟨w, rest, heq, hw, hcase⟩ := ih h
      refine ⟨c :: w, rest, by rw [List.cons_append, heq], ?_, hcase⟩
      intro d hd
      rcases (List.mem_cons).mp hd with rfl | hd'
      · simpa using hc
      · exact hw d hd'
    · by_cases hu : c = '_'
      · subst hu
        rw [scanAfterLetter, if_neg hc, if_pos rfl] at h
        exact ⟨[], '_' :: cs', rfl, by simp, Or.inr ⟨cs', rfl, h⟩⟩
      · rw [scanAfterLetter, if_neg hc, if_neg hu] at h
        exact absurd h (by simp)

theorem scan_to_shape : ∀ (N : Nat) (x : List Char), x.length ≤ N →
    scanGroupStart x = true →
    ∃ gs : List (List Char), gs ≠ [] ∧
      (∀ g ∈ gs, g ≠ [] ∧ ∀ c ∈ g, c ∈ lowerChars) ∧ x = sepJoin gs := by
  intro N
  induction N with
  | zero =>
    intro x hlen h
    have : x = [] := List.eq_nil_of_length_eq_zero (Nat.le_zero.mp hlen)
    subst this
    exact absurd h (by simp [scanGroupStart])
  | succ N ihN =>
    intro x hlen h
    cases x with
    | nil => exact absurd h (by simp [scanGroupStart])
    | cons c cs =>
      rw [scanGroupStart, Bool.and_eq_true] at h
      obtain ⟨hc, hafter⟩ := h
      have hcl : c ∈ lowerChars := by simpa using hc
      obtain ⟨w, rest, heq, hw, hcase⟩ := scanAfterLetter_split cs hafter
      rcases hcase with rfl | ⟨t, rfl, ht⟩
      · refine ⟨[c :: w], by simp, ?_, ?_⟩
        · intro g hg
          rw [List.mem_singleton] at hg
          subst hg
          refine ⟨by simp, ?_⟩
          intro d hd
          rcases (List.mem_cons).mp hd with rfl | hd'
          · exact hcl
          · exact hw d hd'
        · rw [heq, List.append_nil]
          rfl
      · have hlent : t.length ≤ N := by
          have := congrArg List.length heq
          simp [List.length_append] at this
          simp at hlen
          omega
        obtain ⟨gs', hgs'ne, hgs'ok, hts⟩ := ihN t hlent ht
        cases gs' with
        | nil => exact absurd rfl hgs'ne
        | cons g0 gs'' =>
          refine ⟨(c :: w) :: g0 :: gs'', by simp, ?_, ?_⟩
          · intro g hg
            rcases (List.mem_cons).mp hg with rfl | hg'
            · refine ⟨by simp, ?_⟩
              intro d hd
              rcases (List.mem_cons).mp hd with rfl | hd'
              · exact hcl
              · exact hw d hd'
            · exact hgs'ok g hg'
          · rw [show sepJoin ((c :: w) :: g0 :: gs'') = (c :: w) ++ '_' :: sepJoin (g0 :: gs'')
              from rfl]
            rw [heq, ← hts]
            rfl

theorem matches_of_shape : ∀ gs : List (List Char), gs ≠ [] →
    (∀ g ∈ gs, g ≠ [] ∧ ∀ c ∈ g, c ∈ lowerChars) →
    sepJoin gs ∈ funcNameRe.matches' := by
  intro gs
  induction gs with
  | nil => intro h _; exact absurd rfl h
  | cons g gs' ih =>
    intro _ hok
    cases gs' with
    | nil =>
      rw [show sepJoin [g] = g from rfl]
      rw [funcNameRe, RegularExpression.matches'_mul, Language.mem_mul]
      refine ⟨[], ?_, g, ?_, by simp⟩
      · rw [RegularExpression.matches'_star]
        exact Language.nil_mem_kstar _
      · exact (mem_plus_anyOf lowerChars g).mpr (hok g (List.mem_cons_self g []))
    | cons g0 gs'' =>
      have hrest := ih (by simp)
        (fun g' hg' => hok g' (List.mem_cons_of_mem g hg'))
      rw [funcNameRe, RegularExpression.matches'_mul, Language.mem_mul] at hrest ⊢
      obtain ⟨u, hu, v, hv, huv⟩ := hrest
      refine ⟨(g ++ ['_']) ++ u, ?_, v, hv, ?_⟩
      · rw [RegularExpression.matches'_star, Language.mem_kstar] at hu ⊢
        obtain ⟨L, rfl, hL⟩ := hu
        refine ⟨(g ++ ['_']) :: L, by simp, ?_⟩
        intro y hy
        rcases (List.mem_cons).mp hy with rfl | hy'
        · exact (mem_funcGroup (g ++ ['_'])).mpr
            ⟨g, ⟨(hok g (List.mem_cons_self g _)).1, (hok g (List.mem_cons_self g _)).2⟩,
              Or.inr rfl⟩
        · exact hL y hy'
      · rw [show sepJoin (g :: g0 :: gs'') = g ++ '_' :: sepJoin (g0 :: gs'') from rfl]
        rw [List.append_assoc, List.append_assoc, huv]
        rfl

/-- The function-name pattern accepts exactly the names of the claim's
snake-case shape. -/
theorem funcName_match_iff_shape (s : String) :
    re_full_match funcNameRe s = true ↔ snake_shape s := by
  constructor
  · intro h
    have hm : s.data ∈ funcNameRe.matches' :=
      (RegularExpression.rmatch_iff_matches' _ _).mp h
    obtain ⟨gs, h1, h2, h3⟩ :=
      scan_to_shape s.data.length s.data (Nat.le_refl _) (scan_of_matches s.data hm)
    exact ⟨gs, h1, h2, h3⟩
  · rintro ⟨gs, h1, h2, h3⟩
    refine (RegularExpression.rmatch_iff_matches' _ _).mpr ?_
    rw [h3]
    exact matches_of_shape gs h1 h2

/-- Executable evaluation of the function-name pattern: the whole-string
match agrees with the two-state scanner on every string. -/
theorem funcName_match_eq_scan (s : String) :
    re_full_match funcNameRe s = scanGroupStart s.data := by
  cases hsc : scanGroupStart s.data with
  | true =>
    obtain ⟨gs, h1, h2, h3⟩ := scan_to_shape s.data.length s.data (Nat.le_refl _) hsc
    exact (RegularExpression.rmatch_iff_matches' funcNameRe s.data).mpr
      (by rw [h3]; exact matches_of_shape gs h1 h2)
  | false =>
    cases hrm : funcNameRe.rmatch s.data with
    | false => exact hrm
    | true =>
      have hscan := scan_of_matches s.data
        ((RegularExpression.rmatch_iff_matches' _ _).mp hrm)
      rw [hsc] at hscan
      exact absurd hscan (by simp)

/-- Executable recogniser for the class-name language. -/
def camelOkL : List Char → Bool
  | [] => false
  | c :: cs => upperChars.contains c && cs.all (fun d => alnumChars.contains d)

theorem camelOkL_iff (x : List Char) : camelOkL x = true ↔
    ∃ c cs', x = c :: cs' ∧ c ∈ upperChars ∧ ∀ d ∈ cs', d ∈ alnumChars := by
  cases x with
  | nil => simp [camelOkL]
  | cons c cs =>
    rw [camelOkL, Bool.and_eq_true, List.all_eq_true]
    constructor
    · rintro ⟨h1, h2⟩
      exact ⟨c, cs, rfl, by simpa using h1, fun d hd => by simpa using h2 d hd⟩
    · rintro ⟨c', cs', heq, h1, h2⟩
      cases heq
      refine ⟨by simpa using h1, ?_⟩
      intro d hd
      simpa using h2 d hd

/-- The class-name pattern accepts exactly the names of the claim's
shape. -/
theorem className_match_iff_shape (s : String) :
    re_full_match classNameRe s = true ↔ camel_shape s := by
  constructor
  · intro h
    exact (mem_classNameRe s.data).mp ((RegularExpression.rmatch_iff_matches' _ _).mp h)
  · intro h
    exact (RegularExpression.rmatch_iff_matches' _ _).mpr ((mem_classNameRe s.data).mpr h)

/-- Executable evaluation of the class-name pattern. -/
theorem className_match_eq_camelOk (s : String) :
    re_full_match classNameRe s = camelOkL s.data := by
  cases hok : camelOkL s.data with
  | true =>
    obtain ⟨c, cs', h1, h2, h3⟩ := (camelOkL_iff s.data).mp hok
    exact (RegularExpression.rmatch_iff_matches' _ _).mpr
      ((mem_classNameRe s.data).mpr ⟨c, cs', h1, h2, h3⟩)
  | false =>
    cases hrm : classNameRe.rmatch s.data with
    | false => exact hrm
    | true =>
      have hsh := (camelOkL_iff s.data).mpr
        ((mem_classNameRe s.data).mp ((RegularExpression.rmatch_iff_matches' _ _).mp hrm))
      rw [hok] at hsh
      exact absurd hsh (by simp)

/-! ### Async declarations are never matched -/

mutual
/-- Replace every `AsyncFunctionDef` node by an anonymous statement node
with the same children; every other node is kept (children rewritten). -/
def scrubAsync : Node → Node
  | .Module b => .Module (scrubAsyncL b)
  | .Import s => .Import s
  | .ImportFrom s => .ImportFrom s
  | .ClassDef name b => .ClassDef name (scrubAsyncL b)
  | .FunctionDef name a r b => .FunctionDef name a r (scrubAsyncL b)
  | .AsyncFunctionDef _ _ _ b => .Other (scrubAsyncL b)
  | .ExprConstStr s => .ExprConstStr s
  | .Other b => .Other (scrubAsyncL b)
def scrubAsyncL : List Node → List Node
  | [] => []
  | n :: ns => scrubAsync n :: scrubAsyncL ns
end

theorem scrubAsyncL_eq_map : ∀ l : List Node, scrubAsyncL l = l.map scrubAsync := by
  intro l
  induction l with
  | nil => rfl
  | cons n ns ih => rw [scrubAsyncL, ih, List.map_cons]

theorem childNodes_scrubAsync (n : Node) :
    childNodes (scrubAsync n) = (childNodes n).map scrubAsync := by
  cases n <;> simp [scrubAsync, childNodes, scrubAsyncL_eq_map]

theorem walkBFS_scrubAsync : ∀ l : List Node,
    walkBFS (l.map scrubAsync) = (walkBFS l).map scrubAsync := by
  intro l
  induction l using walkBFS.induct with
  | case1 => simp [walkBFS]
  | case2 n todo ih =>
    rw [List.map_cons, walkBFS, walkBFS, List.map_cons]
    rw [← ih, List.map_append, childNodes_scrubAsync]

theorem walk_scrubAsync (tree : Node) :
    walk (scrubAsync tree) = (walk tree).map scrubAsync := by
  rw [walk, walk, show [scrubAsync tree] = [tree].map scrubAsync from rfl,
    walkBFS_scrubAsync]

theorem withIdx_map {α β : Type} (f : α → β) :
    ∀ (l : List α) (k : Nat),
      withIdx k (l.map f) = (withIdx k l).map (fun ic => (ic.1, f ic.2)) := by
  intro l
  induction l with
  | nil => intro k; rfl
  | cons a l ih => intro k; simp [withIdx, ih]

theorem childPairs_scrubAsync (pn : NPath × Node) :
    childPairs (pn.1, scrubAsync pn.2)
      = (childPairs pn).map (fun x => (x.1, scrubAsync x.2)) := by
  obtain ⟨p, n⟩ := pn
  simp [childPairs, childNodes_scrubAsync, withIdx_map, List.map_map]

theorem walkP_scrubAsync : ∀ l : List (NPath × Node),
    walkP (l.map (fun x => (x.1, scrubAsync x.2)))
      = (walkP l).map (fun x => (x.1, scrubAsync x.2)) := by
  intro l
  induction l using walkP.induct with
  | case1 => simp [walkP]
  | case2 pn todo ih =>
    rw [List.map_cons, walkP, walkP, List.map_cons]
    rw [← ih, List.map_append, childPairs_scrubAsync pn]

theorem walkPaths_scrubAsync (tree : Node) :
    walkPaths (scrubAsync tree)
      = (walkPaths tree).map (fun x => (x.1, scrubAsync x.2)) := by
  rw [walkPaths, walkPaths,
    show [(([] : NPath), scrubAsync tree)]
      = [(([] : NPath), tree)].map (fun x => (x.1, scrubAsync x.2)) from rfl,
    walkP_scrubAsync]

theorem nodeAt_scrubAsync (p : NPath) : ∀ (n : Node),
    nodeAt (scrubAsync n) p = (nodeAt n p).map scrubAsync := by
  induction p with
  | nil => intro n; simp [nodeAt]
  | cons i p ih =>
    intro n
    rw [nodeAt_cons, nodeAt_cons, childNodes_scrubAsync, List.getElem?_map]
    cases (childNodes n)[i]? with
    | none => rfl
    | some c => simp [ih]

theorem isClassNode_scrubAsync (n : Node) : isClassNode (scrubAsync n) = isClassNode n := by
  cases n <;> rfl

theorem isFuncNode_scrubAsync (n : Node) : isFuncNode (scrubAsync n) = isFuncNode n := by
  cases n <;> rfl

theorem directParentIsClass_scrubAsync (tree : Node) (p : NPath) :
    directParentIsClass (scrubAsync tree) p = directParentIsClass tree p := by
  rw [directParentIsClass, directParentIsClass, nodeAt_scrubAsync]
  cases nodeAt tree p.dropLast with
  | none => rfl
  | some m => simp [isClassNode_scrubAsync]

theorem docstringOf_scrubAsync (b : List Node) :
    docstringOf (scrubAsyncL b) = docstringOf b := by
  cases b with
  | nil => rfl
  | cons h t =>
    rw [scrubAsyncL]
    cases h <;> rfl

theorem importName_scrubAsync (n : Node) : importName (scrubAsync n) = importName n := by
  cases n <;> rfl

theorem filter_map_scrub (p : Node → Bool) (g : Node → String)
    (hp : ∀ n, p (scrubAsync n) = p n)
    (hg : ∀ n, p n = true → g (scrubAsync n) = g n)
    (l : List Node) :
    ((l.map scrubAsync).filter p).map g = (l.filter p).map g := by
  rw [List.filter_map, List.map_map]
  have hfil : l.filter (p ∘ scrubAsync) = l.filter p :=
    List.filter_congr (fun a _ => hp a)
  rw [hfil]
  apply List.map_congr_left
  intro a ha
  exact hg a (List.mem_filter.mp ha).2

theorem get_classes_scrubAsync (tree : Node) :
    get_classes (scrubAsync tree) = get_classes tree := by
  rw [get_classes_eq, get_classes_eq, walk_scrubAsync]
  apply filter_map_scrub
  · exact isClassNode_scrubAsync
  · intro n h
    cases n <;> simp_all [isClassNode, declName, scrubAsync]

theorem get_special_methods_scrubAsync (tree : Node) :
    get_special_methods (scrubAsync tree) = get_special_methods tree := by
  rw [get_special_methods_eq, get_special_methods_eq, walk_scrubAsync]
  apply filter_map_scrub
  · intro n
    cases n <;> simp [isFuncNode, declName, scrubAsync]
  · intro n h
    rw [Bool.and_eq_true] at h
    cases n <;> simp_all [isFuncNode, declName, scrubAsync]

theorem get_type_annotation_issues_scrubAsync (tree : Node) :
    get_type_annotation_issues (scrubAsync tree) = get_type_annotation_issues tree := by
  rw [get_type_annotation_issues_eq, get_type_annotation_issues_eq, walk_scrubAsync]
  apply filter_map_scrub
  · intro n
    cases n <;> simp [annFlagged, scrubAsync]
  · intro n h
    cases n <;> simp_all [annFlagged, declName, scrubAsync]

theorem check_function_naming_scrubAsync (tree : Node) :
    check_function_naming (scrubAsync tree) = check_function_naming tree := by
  rw [check_function_naming_eq, check_function_naming_eq, walk_scrubAsync]
  apply filter_map_scrub
  · intro n
    cases n <;> simp [badFuncNameFlagged, scrubAsync]
  · intro n h
    cases n <;> simp_all [badFuncNameFlagged, declName, scrubAsync]

theorem get_docstrings_scrubAsync (tree : Node) :
    get_docstrings (scrubAsync tree) = get_docstrings tree := by
  rw [get_docstrings_eq, get_docstrings_eq, walk_scrubAsync]
  apply filter_map_scrub
  · intro n
    cases n <;> simp [docRelevant, scrubAsync]
  · intro n h
    cases n with
    | ClassDef name b =>
      simp [docEntryOf, declName, bodyOf, scrubAsync, docstringOf_scrubAsync]
    | FunctionDef name a r b =>
      simp [docEntryOf, declName, bodyOf, scrubAsync, docstringOf_scrubAsync]
    | Module b => simp [docRelevant] at h
    | Import s => simp [docRelevant] at h
    | ImportFrom s => simp [docRelevant] at h
    | AsyncFunctionDef name a r b => simp [docRelevant] at h
    | ExprConstStr s => simp [docRelevant] at h
    | Other b => simp [docRelevant] at h

theorem get_imports_scrubAsync (tree : Node) :
    get_imports (scrubAsync tree) = get_imports tree := by
  rw [get_imports, get_imports, walk_scrubAsync, List.filterMap_map]
  have : (walk tree).filterMap (importName ∘ scrubAsync) = (walk tree).filterMap importName :=
    List.filterMap_congr (fun a _ => importName_scrubAsync a)
  rw [this]

theorem get_functions_scrubAsync (tree : Node) :
    get_functions (parentAssignments (scrubAsync tree)) (scrubAsync tree)
      = get_functions (parentAssignments tree) tree := by
  rw [get_functions_eq, get_functions_eq, walkPaths_scrubAsync]
  rw [List.filter_map, List.map_map]
  have hfil : (walkPaths tree).filter
      ((fun pn => isFuncNode pn.2 && !directParentIsClass (scrubAsync tree) pn.1)
        ∘ (fun x => (x.1, scrubAsync x.2)))
      = (walkPaths tree).filter
          (fun pn => isFuncNode pn.2 && !directParentIsClass tree pn.1) := by
    apply List.filter_congr
    intro pn _
    show (isFuncNode (scrubAsync pn.2) && !directParentIsClass (scrubAsync tree) pn.1) = _
    rw [isFuncNode_scrubAsync, directParentIsClass_scrubAsync]
  rw [hfil]
  apply List.map_congr_left
  intro pn hpn
  have h2 := (List.mem_filter.mp hpn).2
  rw [Bool.and_eq_true] at h2
  obtain ⟨p, n⟩ := pn
  cases n <;> simp_all [isFuncNode, declName, scrubAsync]

/-! ### Reference definitions and concrete examples -/

mutual
/-- Modelled from the spec: "Discovery order: pre-order tree-walk order in
which nodes are first visited" — the depth-first pre-order traversal,
stated for comparison with the implementation's queue-based walk. -/
def preWalk : Node → List Node
  | .Module b => .Module b :: preWalkL b
  | .Import s => [.Import s]
  | .ImportFrom s => [.ImportFrom s]
  | .ClassDef name b => .ClassDef name b :: preWalkL b
  | .FunctionDef name a r b => .FunctionDef name a r b :: preWalkL b
  | .AsyncFunctionDef name a r b => .AsyncFunctionDef name a r b :: preWalkL b
  | .ExprConstStr s => [.ExprConstStr s]
  | .Other b => .Other b :: preWalkL b
def preWalkL : List Node → List Node
  | [] => []
  | n :: ns => preWalk n ++ preWalkL ns
end

/-- Class names in pre-order discovery order, as the spec describes
`get_classes`. -/
def preorder_classes (tree : Node) : List String :=
  (preWalk tree).filterMap (fun n =>
    match n with
    | .ClassDef name _ => some name
    | _ => none)

theorem lookupP_append_self (l s2 : AttrStore) (k : NPath) :
    lookupP (l ++ (l ++ s2)) k = lookupP (l ++ s2) k := by
  simp only [lookupP, List.find?_append]
  cases l.find? (fun e => decide (e.1 = k)) <;> simp

theorem get_functions_lookup_congr (s s' : AttrStore) (tree : Node)
    (h : ∀ p, lookupP s p = lookupP s' p) :
    get_functions s tree = get_functions s' tree := by
  rw [get_functions, get_functions]
  apply List.filterMap_congr
  intro pn _
  have hpc : parentAttrIsClass s pn.1 = parentAttrIsClass s' pn.1 := by
    rw [parentAttrIsClass, parentAttrIsClass, h pn.1]
  cases pn.2 <;> simp [hpc]

/-- Modelled from the spec: the full ordered parameter sequence of a
function declaration (positional-only, positional-or-keyword, `*args`,
keyword-only, `**kwargs` — every parameter that can carry a type
annotation). -/
def allParams (a : Arguments) : List Arg :=
  a.posonlyargs ++ a.args ++ a.vararg.toList ++ a.kwonlyargs ++ a.kwarg.toList

/-- Modelled from the spec: flag a non-special function iff any parameter
lacks a declared type or the function lacks a declared return type. -/
def specAnnFlagged : Node → Bool
  | .FunctionDef name a returns _ =>
    !is_special_method name && (((allParams a).any (fun arg => !arg.annotated)) || !returns)
  | _ => false

/-- A plain function declaration with no parameters, no return annotation
and no body, used by the concrete examples. -/
def fnNode (name : String) : Node := .FunctionDef name noArgs false []

/-- Example tree for the function-naming examples of the claims. -/
def exNaming : Node :=
  .Module [fnNode (r"do_thing"), fnNode (r"DoThing"), fnNode (r"do__thing"),
    fnNode (r"_do"), fnNode (r"do1")]

/-- Example function whose only parameter is keyword-only and
unannotated, while the return type is annotated. -/
def exC1fn : Node :=
  .FunctionDef (r"f") ⟨[], [], none, [⟨(r"x"), false⟩], none⟩ true []

/-- Example module containing `exC1fn`. -/
def exC1 : Node := .Module [exC1fn]

/-- Example module with one documented plain function. -/
def exDoc : Node := .Module [.FunctionDef (r"f") noArgs false [.ExprConstStr (r"doc")]]

/-- Example module with a nested class, separating breadth-first from
pre-order traversal. -/
def exNested : Node :=
  .Module [.ClassDef (r"A") [.ClassDef (r"Inner") []], .ClassDef (r"B") []]

/-- Example module with an async function and a plain function sharing
one name. -/
def exAsync : Node :=
  .Module [.AsyncFunctionDef (r"f") noArgs false [], .FunctionDef (r"f") noArgs false []]

/-! ### The claims -/

/-- C1 (counterexample): `exC1fn` is a non-special function declaration
occurring in `exC1` whose only parameter (a keyword-only one) lacks a
type annotation, so the claim requires its name in the
missing-annotations list; the list is empty, because
`get_type_annotation_issues` inspects only the plain `args.args`
parameters. -/
theorem C1_counterexample :
    specAnnFlagged exC1fn = true ∧ exC1fn ∈ walk exC1 ∧
      get_type_annotation_issues exC1 = [] := by
  refine ⟨?_, ?_, ?_⟩
  · simp +decide [specAnnFlagged, exC1fn, allParams, is_special_method]
  · simp [exC1, exC1fn, walk, walkBFS, childNodes]
  · rw [get_type_annotation_issues_eq]
    simp +decide [exC1, exC1fn, walk, walkBFS, childNodes, annFlagged, is_special_method]

/-- C1 (amended): for every non-special plain function declaration,
`get_type_annotation_issues` includes its name — exactly once per
declaration, in walk order — iff some positional-or-keyword parameter
(the `args.args` list; positional-only, keyword-only, `*args` and
`**kwargs` parameters are not inspected) lacks a type annotation or the
declaration lacks a return annotation; in particular a function with
zero parameters and no return type is always included when not special,
and a declaration with all `args.args` parameters and the return type
annotated is never included. -/
theorem C1_annotation_flagging :
    (∀ tree : Node, get_type_annotation_issues tree
        = ((walk tree).filter annFlagged).map declName)
  ∧ (∀ name a r b, annFlagged (Node.FunctionDef name a r b)
        = (!is_special_method name && ((a.args.any fun arg => !arg.annotated) || !r)))
  ∧ (∀ name b, annFlagged (Node.FunctionDef name noArgs false b) = !is_special_method name)
  ∧ (∀ name a b, annFlagged (Node.FunctionDef name a true b)
        = (!is_special_method name && (a.args.any fun arg => !arg.annotated))) := by
  refine ⟨get_type_annotation_issues_eq, fun name a r b => rfl, ?_, ?_⟩
  · intro name b
    simp [annFlagged, noArgs]
  · intro name a b
    simp [annFlagged]

/-- C2: `check_function_naming` reports exactly the non-special plain
function names failing the pattern, and the pattern accepts exactly the
names made of one or more lowercase groups separated by single
underscores; the five example names behave as the claim lists. -/
theorem C2_function_naming :
    (∀ s : String, re_full_match funcNameRe s = true ↔ snake_shape s)
  ∧ (∀ tree : Node, check_function_naming tree
        = ((walk tree).filter badFuncNameFlagged).map declName)
  ∧ (∀ name a r b, badFuncNameFlagged (Node.FunctionDef name a r b)
        = (!is_special_method name && !re_full_match funcNameRe name))
  ∧ check_function_naming exNaming
      = [(r"DoThing"), (r"do__thing"), (r"_do"), (r"do1")] := by
  refine ⟨funcName_match_iff_shape, check_function_naming_eq, fun name a r b => rfl, ?_⟩
  rw [check_function_naming_eq]
  simp +decide [exNaming, fnNode, walk, walkBFS, childNodes, badFuncNameFlagged, declName,
    funcName_match_eq_scan, is_special_method]

/-- C3: `check_class_naming` keeps exactly the names failing the
class-name pattern, which accepts exactly one uppercase letter followed
by a run of letters and digits; the four example names behave as the
claim lists. -/
theorem C3_class_naming :
    (∀ s : String, re_full_match classNameRe s = true ↔ camel_shape s)
  ∧ (∀ classes : List String, check_class_naming classes
        = classes.filter (fun cls => !re_full_match classNameRe cls))
  ∧ check_class_naming [(r"Foo1"), (r"foo"), (r"Foo_Bar"), (r"1Foo")]
      = [(r"foo"), (r"Foo_Bar"), (r"1Foo")] := by
  refine ⟨className_match_iff_shape, fun classes => rfl, ?_⟩
  simp +decide [check_class_naming, className_match_eq_camelOk]

/-- C4 (counterexample): a function `f` with docstring `doc` produces the
entry `"f:\ndoc"` — name, colon, newline, text — not the claimed
`"f: doc"` with a space. -/
theorem C4_counterexample :
    get_docstrings exDoc = [(r"f") ++ colonNL ++ (r"doc")]
  ∧ get_docstrings exDoc ≠ [(r"f") ++ (r": ") ++ (r"doc")] := by
  have h1 : get_docstrings exDoc = [(r"f") ++ colonNL ++ (r"doc")] := by
    rw [get_docstrings_eq]
    simp +decide [exDoc, walk, walkBFS, childNodes, docRelevant, docEntryOf, declName, bodyOf,
      docstringOf, docEntry, is_special_method, notFoundText, colonNL]
  refine ⟨h1, ?_⟩
  rw [h1]
  decide

/-- C4 (amended): `get_docstrings` emits exactly one entry per class and
per non-special plain function, in walk order; a node with a non-empty
leading docstring `d` yields `"<name>:\n<d>"` (newline separator), and a
node with no leading docstring — or an empty one, which Python
truthiness treats as absent — yields `"<name>: DocString not found."`. -/
theorem C4_docstring_entries :
    (∀ tree : Node, get_docstrings tree
        = ((walk tree).filter docRelevant).map docEntryOf)
  ∧ (∀ name d, docEntry name (some d)
        = if d.isEmpty then name ++ notFoundText else name ++ colonNL ++ d)
  ∧ (∀ name, docEntry name none = name ++ notFoundText)
  ∧ get_docstrings exDoc = [(r"f") ++ colonNL ++ (r"doc")] := by
  refine ⟨get_docstrings_eq, fun name d => rfl, fun name => rfl, ?_⟩
  rw [get_docstrings_eq]
  simp +decide [exDoc, walk, walkBFS, childNodes, docRelevant, docEntryOf, declName, bodyOf,
    docstringOf, docEntry, is_special_method, notFoundText, colonNL]

/-- C5 (counterexample): on a tree with a nested class the code's
traversal (`ast.walk`, breadth-first) yields `A, B, Inner` while the
claimed pre-order discovery yields `A, Inner, B`. -/
theorem C5_counterexample :
    get_classes exNested = [(r"A"), (r"B"), (r"Inner")]
  ∧ preorder_classes exNested = [(r"A"), (r"Inner"), (r"B")]
  ∧ get_classes exNested ≠ preorder_classes exNested := by
  have h1 : get_classes exNested = [(r"A"), (r"B"), (r"Inner")] := by
    rw [get_classes_eq]
    simp +decide [exNested, walk, walkBFS, childNodes, isClassNode, declName]
  have h2 : preorder_classes exNested = [(r"A"), (r"Inner"), (r"B")] := by
    simp +decide [preorder_classes, exNested, preWalk, preWalkL]
  refine ⟨h1, h2, ?_⟩
  rw [h1, h2]
  decide

/-- C5 (amended): `get_classes` and `get_docstrings` both read the single
breadth-first traversal `walk` (the order of `ast.walk`): class names
and docstring entries appear in that one shared order, classes and
functions interleaved; on nested trees this breadth-first order differs
from pre-order. -/
theorem C5_discovery_order :
    (∀ tree : Node, get_classes tree = ((walk tree).filter isClassNode).map declName)
  ∧ (∀ tree : Node, get_docstrings tree
        = ((walk tree).filter docRelevant).map docEntryOf)
  ∧ walk exNested
      = [exNested, Node.ClassDef (r"A") [Node.ClassDef (r"Inner") []],
          Node.ClassDef (r"B") [], Node.ClassDef (r"Inner") []] := by
  refine ⟨get_classes_eq, get_docstrings_eq, ?_⟩
  simp [exNested, walk, walkBFS, childNodes]

/-- C6: after parent annotation, `get_functions` collects exactly the
plain function declarations whose direct parent node is not a class
declaration, and the function declarations with a class parent (the
methods) are exactly the complement: the two sets partition all
`FunctionDef` occurrences of the tree. -/
theorem C6_function_partition :
    ∀ tree : Node,
      get_functions (parentAssignments tree) tree
        = ((walkPaths tree).filter
            (fun pn => isFuncNode pn.2 && !directParentIsClass tree pn.1)).map
            (fun pn => declName pn.2)
    ∧ ((walkPaths tree).filter (fun pn => isFuncNode pn.2)).partition
          (fun pn => directParentIsClass tree pn.1)
        = (((walkPaths tree).filter (fun pn => isFuncNode pn.2)).filter
            (fun pn => directParentIsClass tree pn.1),
          ((walkPaths tree).filter (fun pn => isFuncNode pn.2)).filter
            (fun pn => !directParentIsClass tree pn.1))
    ∧ ((walkPaths tree).filter (fun pn => isFuncNode pn.2 && !directParentIsClass tree pn.1))
        = ((walkPaths tree).filter (fun pn => isFuncNode pn.2)).filter
            (fun pn => !directParentIsClass tree pn.1) := by
  intro tree
  refine ⟨get_functions_eq tree, List.partition_eq_filter_filter _ _, ?_⟩
  rw [List.filter_filter]
  apply List.filter_congr
  intro pn _
  exact Bool.and_comm _ _

/-- C7: `is_special_method` holds exactly for names that begin and end
with the `__` marker; such names never occur in the naming-violation or
annotation-violation lists, contribute no docstring entry (entries come
exactly from classes and non-special plain functions), and every plain
function declaration with a special name is kept by
`get_special_methods`, with no regard to its parent. -/
theorem C7_special_methods :
    (∀ s : String, is_special_method s
        = (beginsWith dunder.data s.data && beginsWith dunder.data.reverse s.data.reverse))
  ∧ (∀ tree : Node, (check_function_naming tree).all (fun s => !is_special_method s) = true)
  ∧ (∀ tree : Node,
      (get_type_annotation_issues tree).all (fun s => !is_special_method s) = true)
  ∧ (∀ tree : Node, get_special_methods tree
        = (((walk tree).filter isFuncNode).map declName).filter is_special_method)
  ∧ (∀ tree : Node, (get_docstrings tree).length
        = ((walk tree).filter (fun n =>
            isClassNode n || (isFuncNode n && !is_special_method (declName n)))).length) := by
  refine ⟨fun s => rfl, ?_, ?_, ?_, ?_⟩
  · intro tree
    rw [check_function_naming_eq, List.all_eq_true]
    intro x hx
    rw [List.mem_map] at hx
    obtain ⟨n, hn, rfl⟩ := hx
    have hf := (List.mem_filter.mp hn).2
    cases n with
    | FunctionDef name a r b =>
      rw [badFuncNameFlagged, Bool.and_eq_true] at hf
      simpa [declName] using hf.1
    | Module b => simp [badFuncNameFlagged] at hf
    | Import s => simp [badFuncNameFlagged] at hf
    | ImportFrom s => simp [badFuncNameFlagged] at hf
    | ClassDef name b => simp [badFuncNameFlagged] at hf
    | AsyncFunctionDef name a r b => simp [badFuncNameFlagged] at hf
    | ExprConstStr s => simp [badFuncNameFlagged] at hf
    | Other b => simp [badFuncNameFlagged] at hf
  · intro tree
    rw [get_type_annotation_issues_eq, List.all_eq_true]
    intro x hx
    rw [List.mem_map] at hx
    obtain ⟨n, hn, rfl⟩ := hx
    have hf := (List.mem_filter.mp hn).2
    cases n with
    | FunctionDef name a r b =>
      rw [annFlagged, Bool.and_eq_true] at hf
      simpa [declName] using hf.1
    | Module b => simp [annFlagged] at hf
    | Import s => simp [annFlagged] at hf
    | ImportFrom s => simp [annFlagged] at hf
    | ClassDef name b => simp [annFlagged] at hf
    | AsyncFunctionDef name a r b => simp [annFlagged] at hf
    | ExprConstStr s => simp [annFlagged] at hf
    | Other b => simp [annFlagged] at hf
  · intro tree
    rw [get_special_methods_eq, List.filter_map, List.filter_filter]
    apply congrArg (List.map declName)
    apply List.filter_congr
    intro n _
    cases n <;> simp [isFuncNode, declName]
  · intro tree
    rw [get_docstrings_eq, List.length_map]
    apply congrArg List.length
    apply List.filter_congr
    intro n _
    cases n <;> simp [docRelevant, isClassNode, isFuncNode, declName]

/-- C8: one run of `add_parents` records exactly one parent assignment
for every non-root node — keyed by the node's identity (its path), the
stored parent being precisely the node of which it is a direct child —
and records nothing for the root.  (In the embedding the extractors are
pure functions of the tree and the store, so they cannot alter these
assignments.) -/
theorem C8_parent_annotation :
    ∀ tree : Node,
      ((parentAssignments tree).map (·.1)).Nodup
    ∧ (∀ q par, ((q, par) ∈ parentAssignments tree ↔
        ∃ p i c, q = p ++ [i] ∧ nodeAt tree p = some par ∧ (childNodes par)[i]? = some c))
    ∧ (∀ par, ((([] : NPath), par)) ∉ parentAssignments tree) := by
  intro tree
  refine ⟨parentAssignments_fst_nodup tree,
    fun q par => mem_parentAssignments tree q par, ?_⟩
  intro par hmem
  obtain ⟨p, i, c, habs, _, _⟩ := (mem_parentAssignments tree [] par).mp hmem
  exact absurd habs.symm (by simp)

/-- C9: running `add_parents` a second time on the already-annotated tree
changes nothing observable: the tree is returned unchanged, every
attribute lookup yields the same value (the duplicate assignments are
shadowed copies of the same values), and each of the seven extractors
returns the same output. -/
theorem C9_idempotent_annotation :
    ∀ tree : Node,
      (add_parents (add_parents [] tree).1 (add_parents [] tree).2).2
          = (add_parents [] tree).2
    ∧ (∀ p, lookupP (add_parents (add_parents [] tree).1 (add_parents [] tree).2).1 p
          = lookupP (add_parents [] tree).1 p)
    ∧ get_functions (add_parents (add_parents [] tree).1 (add_parents [] tree).2).1
          (add_parents (add_parents [] tree).1 (add_parents [] tree).2).2
        = get_functions (add_parents [] tree).1 (add_parents [] tree).2
    ∧ get_imports (add_parents (add_parents [] tree).1 (add_parents [] tree).2).2
        = get_imports (add_parents [] tree).2
    ∧ get_classes (add_parents (add_parents [] tree).1 (add_parents [] tree).2).2
        = get_classes (add_parents [] tree).2
    ∧ get_docstrings (add_parents (add_parents [] tree).1 (add_parents [] tree).2).2
        = get_docstrings (add_parents [] tree).2
    ∧ get_type_annotation_issues
          (add_parents (add_parents [] tree).1 (add_parents [] tree).2).2
        = get_type_annotation_issues (add_parents [] tree).2
    ∧ check_function_naming (add_parents (add_parents [] tree).1 (add_parents [] tree).2).2
        = check_function_naming (add_parents [] tree).2
    ∧ get_special_methods (add_parents (add_parents [] tree).1 (add_parents [] tree).2).2
        = get_special_methods (add_parents [] tree).2 := by
  intro tree
  have hlook : ∀ p,
      lookupP (add_parents (add_parents [] tree).1 (add_parents [] tree).2).1 p
        = lookupP (add_parents [] tree).1 p := by
    intro p
    exact lookupP_append_self (parentAssignments tree) [] p
  refine ⟨rfl, hlook, ?_, rfl, rfl, rfl, rfl, rfl, rfl⟩
  exact get_functions_lookup_congr _ _ tree hlook

/-- C10 (counterexample): in `exAsync` the async function `f` shares its
name with a plain function, and that name does appear in the
free-functions list, refuting "its name never appears". -/
theorem C10_counterexample :
    (Node.AsyncFunctionDef (r"f") noArgs false []) ∈ walk exAsync
  ∧ get_functions (parentAssignments exAsync) exAsync = [(r"f")] := by
  constructor
  · simp [exAsync, walk, walkBFS, childNodes]
  · rw [get_functions_eq]
    simp +decide [exAsync, walkPaths, walkP, childPairs, childNodes, withIdx, isFuncNode,
      declName, directParentIsClass, nodeAt]

/-- C10 (amended): an `AsyncFunctionDef` node itself is never matched by
any extractor: replacing every async function declaration by an
anonymous statement node with the same children leaves every
extractor's output unchanged.  (Its body is still traversed, and its
name can still appear when a plain declaration elsewhere bears the same
name.) -/
theorem C10_async_invisible :
    ∀ tree : Node,
      get_imports (scrubAsync tree) = get_imports tree
    ∧ get_classes (scrubAsync tree) = get_classes tree
    ∧ get_functions (parentAssignments (scrubAsync tree)) (scrubAsync tree)
        = get_functions (parentAssignments tree) tree
    ∧ get_docstrings (scrubAsync tree) = get_docstrings tree
    ∧ get_type_annotation_issues (scrubAsync tree) = get_type_annotation_issues tree
    ∧ check_function_naming (scrubAsync tree) = check_function_naming tree
    ∧ get_special_methods (scrubAsync tree) = get_special_methods tree := by
  intro tree
  exact ⟨get_imports_scrubAsync tree, get_classes_scrubAsync tree,
    get_functions_scrubAsync tree, get_docstrings_scrubAsync tree,
    get_type_annotation_issues_scrubAsync tree, check_function_naming_scrubAsync tree,
    get_special_methods_scrubAsync tree⟩
